import Mathlib

/-!
Verification development for the Gradescope archiving tool
(`gradescope_lib.py`, `gradescope_archiver.py`, `gradescope_course_manager.py`).

The Python sources are shallowly embedded: pure string processing becomes
Lean functions on `List Char`, the on-disk state touched by archive
normalization becomes an explicit association list from paths to file
nodes, the browser page becomes explicit data describing what the
selectors would match, and fallible operations return `Option`/`Except`.
-/

/-! ## Basic list and string utilities -/

/-- `leadsWith pre l` is true when `pre` is a leading segment of `l`
(used to model Python's `startswith` and substring scanning). -/
def leadsWith : List Char → List Char → Bool
  | [], _ => true
  | _ :: _, [] => false
  | a :: as, b :: bs => a == b && leadsWith as bs

/-- `occursIn pat l` is true when `pat` occurs contiguously inside `l`;
it models Python's `pat in s` substring test. -/
def occursIn (pat : List Char) : List Char → Bool
  | [] => leadsWith pat []
  | c :: cs => leadsWith pat (c :: cs) || occursIn pat cs

/-- `endsIn suf l` is true when `l` ends with `suf`, modelling Python's
`str.endswith`. -/
def endsIn (suf l : List Char) : Bool :=
  leadsWith suf.reverse l.reverse

/-- String-level substring containment, modelling Python's `in`. -/
def strContains (s pat : String) : Bool :=
  occursIn pat.data s.data

/-- Membership of a string in a list of strings (models membership in the
Python sets and lists used for URL deduplication). -/
def smem (x : String) : List String → Bool
  | [] => false
  | y :: ys => (y == x) || smem x ys

/-- Boolean no-duplicates predicate on lists of strings. -/
def snodup : List String → Bool
  | [] => true
  | y :: ys => !(smem y ys) && snodup ys

/-- Python's `\s` for the ASCII range: space, tab, newline, carriage
return, vertical tab, form feed. -/
def pyIsSpace (c : Char) : Bool :=
  c == ' ' || c == '\t' || c == '\n' || c == '\r' ||
  c == Char.ofNat 11 || c == Char.ofNat 12

/-- Python's `str.strip()`: drop leading and trailing whitespace. -/
def pyStrip (l : List Char) : List Char :=
  ((l.dropWhile pyIsSpace).reverse.dropWhile pyIsSpace).reverse

/-! ## Status classifier

`gradescope_lib.download_course` (line 325) decides which rows to queue:
`if "Graded" in status_text or re.search(r'\d+(\.\d+)?\s*/\s*\d+(\.\d+)?', status_text)`.
`gradescope_archiver.download_course` (lines 400-404) checks the status
column: score pattern means graded, `"Submitted"` (or anything else)
means not graded; its whole-row fallback (lines 408-414) additionally
requires `"Submitted" not in row_text`.
-/

/-- One attempt of the regex `\d+(\.\d+)?\s*/\s*\d+(\.\d+)?` anchored at
the head of the character list.  The trailing optional fraction group
never affects whether a match exists, and greedy matching of `\d+` and
`(\.\d+)?` is complete here: whenever a character run is consumed
greedily, no shorter choice can let `\s*/` match. -/
def scoreMatchAt (cs : List Char) : Bool :=
  match cs with
  | [] => false
  | c :: _ =>
    if !c.isDigit then false
    else
      let r1 := cs.dropWhile Char.isDigit
      let r2 :=
        match r1 with
        | '.' :: rest =>
          match rest with
          | d :: _ => if d.isDigit then rest.dropWhile Char.isDigit else r1
          | [] => r1
        | _ => r1
      let r3 := r2.dropWhile pyIsSpace
      match r3 with
      | '/' :: r4 =>
        let r5 := r4.dropWhile pyIsSpace
        match r5 with
        | d :: _ => d.isDigit
        | [] => false
      | _ => false

/-- `re.search` of the score pattern: try a match at every position. -/
def scoreSearchL : List Char → Bool
  | [] => false
  | c :: cs => scoreMatchAt (c :: cs) || scoreSearchL cs

/-- `re.search(r'\d+(\.\d+)?\s*/\s*\d+(\.\d+)?', s)` as used by both
`download_course` implementations. -/
def scoreSearch (s : String) : Bool :=
  scoreSearchL s.data

/-- The grading states named by the data model. -/
inductive GradingState where
  | Graded
  | Submitted
  | NotSubmitted
  | Unknown
deriving DecidableEq, Repr

/-- The row filter of `gradescope_lib.download_course` line 325: a row is
queued exactly when the status text contains `"Graded"` or matches the
score pattern. -/
def libIsGraded (s : String) : Bool :=
  strContains s "Graded" || scoreSearch s

/-- The status-column check of `gradescope_archiver.download_course`
lines 400-404: score pattern means graded; a bare `"Submitted"` (and
anything else) is explicitly not graded. -/
def archiverStatusIsGraded (s : String) : Bool :=
  if scoreSearch s then true
  else if strContains s "Submitted" then false
  else false

/-- The whole-row fallback of `gradescope_archiver.download_course`
lines 408-414: graded only when the score pattern matches and
`"Submitted"` does not occur anywhere in the row text. -/
def archiverRowFallbackIsGraded (row : String) : Bool :=
  if scoreSearch row && !(strContains row "Submitted") then true
  else false

/-- The four-rule classifier exactly as the specification words it
(priority order: score pattern, `"Graded"` token, `"Submitted"` token,
default `NotSubmitted`); stated for comparison against the code's
filters. -/
def classifySpec (s : String) : GradingState :=
  if scoreSearch s then GradingState.Graded
  else if strContains s "Graded" then GradingState.Graded
  else if strContains s "Submitted" then GradingState.Submitted
  else GradingState.NotSubmitted

/-! ## Name sanitization

`gradescope_lib` sanitizes names with Python comprehensions of the form
`"".join(c for c in name if c.isalnum() or c in KEEP).strip()`:
course directories keep `' -'` (line 311), assignment directories keep
`'._-'` (line 341), and the requests-downloaded PDF filename keeps
`'._- '` (line 297). -/

/-- Keep-set for course directory names (`gradescope_lib` line 311). -/
def keepCourseChar (c : Char) : Bool :=
  c.isAlphanum || c == ' ' || c == '-'

/-- Keep-set for assignment directory names (`gradescope_lib` line 341). -/
def keepAssignChar (c : Char) : Bool :=
  c.isAlphanum || c == '.' || c == '_' || c == '-'

/-- Keep-set for the graded-PDF filename (`gradescope_lib` line 297). -/
def keepPdfChar (c : Char) : Bool :=
  c.isAlphanum || c == '.' || c == '_' || c == '-' || c == ' '

/-- Course-name sanitizer of `gradescope_lib.download_course` line 311. -/
def sanitizeCourseName (s : String) : String :=
  ⟨pyStrip (s.data.filter keepCourseChar)⟩

/-- Assignment-name sanitizer of `gradescope_lib.download_course`
line 341. -/
def sanitizeAssignmentName (s : String) : String :=
  ⟨pyStrip (s.data.filter keepAssignChar)⟩

/-- Filename sanitizer of `_try_graded_pdf_download_requests` line 297. -/
def pdfSafeName (s : String) : String :=
  ⟨pyStrip (s.data.filter keepPdfChar)⟩

/-! ## Download strategy chain (`gradescope_lib`)

`_try_direct_downloads` iterates over a fixed list of selectors; for each
selector it iterates over the matched links.  A page is modelled by the
lists of links each selector matches, the outcome of the graded-PDF
`href` inspection used by the requests fallback, whether that direct
fetch would succeed, and whether navigating to the assignment page
succeeds at all.  A link is its `href` attribute (absent attributes give
`none`) together with the result of clicking it inside
`page.expect_download`: `some filename` when a download event fires and
the save succeeds, `none` when anything in that block raises (the
exception is caught and the loop continues). -/

structure DLink where
  href : Option String
  dl : Option String
deriving DecidableEq, Repr

structure DPage where
  navOk : Bool
  sels : List (List DLink)
  pdfHref : Option (Option String)
  pdfFetchOk : Bool

/-- Events observable on the network side of the chain: a click that
fetches an href, and a completed save of an href. -/
inductive FEv where
  | fetch : String → FEv
  | save : String → FEv
deriving DecidableEq, Repr

structure DLState where
  count : Nat
  downloaded : List String
  trace : List FEv
  saved : List String
deriving Repr

def initDL : DLState := ⟨0, [], [], []⟩

/-- How many times href `h` is fetched (clicked) in a trace. -/
def countFetch (h : String) : List FEv → Nat
  | [] => 0
  | FEv.fetch h' :: r => (if h' = h then 1 else 0) + countFetch h r
  | FEv.save _ :: r => countFetch h r

/-- One iteration of the inner loop of `_try_direct_downloads`
(lines 158-183): skip links without a fresh, non-empty href; otherwise
click (a fetch), and on a successful download record the file, count it
and add the href to `downloaded_urls`; on failure the exception is
caught and nothing is recorded. -/
def processLink (st : DLState) (l : DLink) : DLState :=
  match l.href with
  | none => st
  | some h =>
    if h == "" then st
    else if smem h st.downloaded then st
    else
      match l.dl with
      | some fn =>
        { count := st.count + 1
          downloaded := st.downloaded ++ [h]
          trace := st.trace ++ [FEv.fetch h, FEv.save h]
          saved := st.saved ++ [fn] }
      | none =>
        { st with trace := st.trace ++ [FEv.fetch h] }

/-- The selector loop of `_try_direct_downloads` (lines 155-183). -/
def runChain (p : DPage) : DLState :=
  p.sels.foldl (fun st links => links.foldl processLink st) initDL

/-- `https://www.gradescope.com` prefixing of relative hrefs
(`gradescope_lib` lines 282-283). -/
def absolutize (h : String) : String :=
  if leadsWith "/".data h.data then "https://www.gradescope.com" ++ h else h

/-- `_try_graded_pdf_download_requests` (lines 269-307): read the href of
the "Download Graded Copy" link (`none` models the locator or attribute
read raising, `some none` a missing attribute), absolutize it, fetch with
the session cookies, and save `<sanitized>_graded.pdf`; every failure is
caught and reported as no file.  Returns the fetched URL and the saved
filename on success. -/
def tryGradedPdfRequests (p : DPage) (assignmentName : String) : Option (String × String) :=
  match p.pdfHref with
  | none => none
  | some none => none
  | some (some h) =>
    if h == "" then none
    else if p.pdfFetchOk then
      some (absolutize h, pdfSafeName assignmentName ++ "_graded.pdf")
    else none

/-- `_try_direct_downloads` (lines 129-191): run the selector chain and,
only when it saved nothing, attempt the requests fallback.  Returns the
final state together with the fallback result (fetched URL and filename)
when the fallback ran and succeeded. -/
def tryDirectDownloads (p : DPage) (assignmentName : String) : DLState × Option (String × String) :=
  if (runChain p).count = 0 then
    match tryGradedPdfRequests p assignmentName with
    | some r =>
      ({ runChain p with count := (runChain p).count + 1, saved := (runChain p).saved ++ [r.2] },
       some r)
    | none => (runChain p, none)
  else (runChain p, none)

structure Outcome where
  count : Nat
  files : List String
deriving DecidableEq, Repr

/-- `download_assignment` (lines 110-126): `page.goto` and
`page.wait_for_load_state` are outside every `try`, so a navigation
failure propagates (`Except.error`); otherwise the direct-download chain
runs and its failures are all absorbed, yielding an outcome. -/
def download_assignment (p : DPage) (assignmentName : String) : Except Unit Outcome :=
  if p.navOk then
    Except.ok ⟨(tryDirectDownloads p assignmentName).1.count,
               (tryDirectDownloads p assignmentName).1.saved⟩
  else Except.error ()

/-! ## Archive normalizer (`gradescope_lib` lines 194-266)

The filesystem affected by extraction is an association list from paths
(component lists) to file nodes.  A node is a plain file or an archive;
an archive carries a flag saying whether opening and extracting it
succeeds (corrupt or mis-named files fail) and its entries as relative
paths paired with nodes.  Extraction places every entry into the target
directory, overwriting existing files the way `extractall` does. -/

abbrev FPath := List String

inductive FNode where
  | plain : FNode
  | archive : Bool → List (FPath × FNode) → FNode

abbrev FS := List (FPath × FNode)

/-- Events logged by the normalizer: successful extraction of a path,
deletion of a path, and a caught extraction failure naming the offending
path. -/
inductive AEvent where
  | extracted : FPath → AEvent
  | deleted : FPath → AEvent
  | failed : FPath → AEvent
deriving DecidableEq, Repr

/-- `pathlib.Path.suffix`: the trailing `.`-suffix of a name, empty when
the only dot is leading or trailing.  Returns the characters after the
last dot of the tail, dot included. -/
def afterLastDot : List Char → Option (List Char)
  | [] => none
  | c :: rest =>
    match afterLastDot rest with
    | some s => some s
    | none => if c == '.' then some rest else none

def pySuffixL (name : List Char) : List Char :=
  match name with
  | [] => []
  | _ :: rest =>
    match afterLastDot rest with
    | none => []
    | some tail => if tail.isEmpty then [] else '.' :: tail

/-- `_get_full_extension` (lines 257-266): lower-case the name, special
case the compound `.tar.gz` / `.tar.bz2` endings, otherwise take the
`pathlib` suffix. -/
def getFullExtension (name : List Char) : List Char :=
  let n := name.map Char.toLower
  if endsIn ".tar.gz".data n then ".tar.gz".data
  else if endsIn ".tar.bz2".data n then ".tar.bz2".data
  else pySuffixL n

/-- The archive extension allowlist used at lines 198 and 232. -/
def archiveExtsL : List (List Char) :=
  [".zip".data, ".tar".data, ".tar.gz".data, ".tgz".data, ".tar.bz2".data]

def isArchiveName (name : String) : Bool :=
  archiveExtsL.contains (getFullExtension name.data)

/-- The filename component of a path (its last component). -/
def lastName : FPath → String
  | [] => ""
  | [x] => x
  | _ :: rest => lastName rest

/-- Whether a path's filename carries an archive extension. -/
def isArchivePath (p : FPath) : Bool :=
  isArchiveName (lastName p)

def lookupFS : FS → FPath → Option FNode
  | [], _ => none
  | (q, n) :: rest, p => if q == p then some n else lookupFS rest p

/-- `unlink`: remove the file at `p`. -/
def removeFS (fs : FS) (p : FPath) : FS :=
  fs.filter (fun e => !(e.1 == p))

/-- Write node `n` at path `p`, overwriting an existing file in place the
way `extractall` does, else creating it. -/
def setFS (fs : FS) (p : FPath) (n : FNode) : FS :=
  if (lookupFS fs p).isSome then
    fs.map (fun e => if e.1 == p then (p, n) else e)
  else fs ++ [(p, n)]

/-- `extractall(dir)`: materialize every archive entry under `dir`. -/
def extractEntries (dir : FPath) (entries : List (FPath × FNode)) (fs : FS) : FS :=
  entries.foldl (fun acc e => setFS acc (dir ++ e.1) e.2) fs

/-- The body of the nested-archive loop (`_extract_nested_archives`
lines 236-254): open the archive, extract into its parent directory,
delete it; any failure is caught, logged and leaves the file in place. -/
def extractOneNested (st : FS × List AEvent) (ap : FPath) : FS × List AEvent :=
  match lookupFS st.1 ap with
  | some (FNode.archive true entries) =>
    (removeFS (extractEntries ap.dropLast entries st.1) ap,
     st.2 ++ [AEvent.extracted ap, AEvent.deleted ap])
  | _ => (st.1, st.2 ++ [AEvent.failed ap])

/-- `_extract_nested_archives` (lines 222-254): snapshot every file under
`dir` whose extension is an archive extension, then extract each one in
turn.  The snapshot is taken once; archives created by these extractions
are not revisited. -/
def extractNestedArchives (dir : FPath) (fs : FS) : FS × List AEvent :=
  let archives := (fs.filter (fun e => dir.isPrefixOf e.1 && isArchivePath e.1)).map (fun e => e.1)
  archives.foldl extractOneNested (fs, [])

/-- `_extract_if_archive` (lines 194-219): non-archives are ignored; an
archive is extracted into `extractTo`, deleted, and then the nested scan
runs over `extractTo`; extraction failure is caught, logged, and leaves
the file in place (the delete and the nested scan are skipped). -/
def extractIfArchive (filepath : FPath) (extractTo : FPath) (fs : FS) : FS × List AEvent :=
  if !(isArchivePath filepath) then (fs, [])
  else
    match lookupFS fs filepath with
    | some (FNode.archive true entries) =>
      let fs2 := removeFS (extractEntries extractTo entries fs) filepath
      let r := extractNestedArchives extractTo fs2
      (r.1, [AEvent.extracted filepath, AEvent.deleted filepath] ++ r.2)
    | _ => (fs, [AEvent.failed filepath])

/-! ## Course discovery

The dashboard is modelled as chunks of course cards: chunk 0 is what the
initial page shows and each successful "See older courses" click appends
the next chunk.  The per-iteration state of the button is a finite list:
`visible` (the click succeeds), `notVisible` (the loop breaks), or
`raises` (the locator/click raises and the `except` breaks the loop). -/

inductive BState where
  | visible
  | notVisible
  | raises
deriving DecidableEq, Repr

/-- Number of successful "See older courses" clicks: the pagination loops
of both implementations click while the button is visible and break on
the first non-visible or raising check. -/
def clicks : List BState → Nat
  | BState.visible :: rest => clicks rest + 1
  | _ => 0

/-- A course card of `gradescope_lib.get_courses`: the `courseBox`
anchor's href (absent attribute gives `none`), whether reading the card
raises (caught at lines 102-105), and the optional name/shortname/term
sub-elements (absent elements trigger the textual fallbacks of
lines 91-93). -/
structure CCard where
  href : Option String
  raises : Bool
  fullName : Option String
  shortName : Option String
  term : Option String
deriving DecidableEq, Repr

structure Course where
  url : String
  full_name : String
  short_name : String
  term : String
deriving DecidableEq, Repr

/-- One iteration of the card loop of `gradescope_lib.get_courses`
(lines 72-105): skip raising cards, missing/empty hrefs, hrefs without
`"/courses/"`, assignment/submission links, and already-seen URLs;
otherwise append the course with its fallback fields. -/
def extractCard (st : List Course × List String) (c : CCard) : List Course × List String :=
  if c.raises then st
  else
    match c.href with
    | none => st
    | some h =>
      if h == "" then st
      else if !(strContains h "/courses/") then st
      else if strContains h "/assignments/" || strContains h "/submissions/" then st
      else
        let url := absolutize h
        if smem url st.2 then st
        else
          let fn := c.fullName.getD "Unknown"
          (st.1 ++ [⟨url, fn, c.shortName.getD fn, c.term.getD ""⟩], st.2 ++ [url])

/-- `gradescope_lib.get_courses` (lines 40-108): click the pagination
button to exhaustion, then scan all course cards of the resulting page
once. -/
def getCoursesLib (chunks : List (List CCard)) (states : List BState) : List Course :=
  (((chunks.take (clicks states + 1)).flatten).foldl extractCard ([], [])).1

/-- An anchor candidate of `gradescope_archiver.get_courses`: the
`a[href*="/courses/"]` matches with their (stripped) text content. -/
structure AAnchor where
  href : Option String
  text : String
deriving DecidableEq, Repr

structure ACourse where
  name : String
  url : String
deriving DecidableEq, Repr

def archDenylist : List String :=
  ["/assignments/", "/submissions/", "/outline/", "/grades/", "/announcements/", "/settings/"]

/-- The anchor scan of `gradescope_archiver.get_courses`
(lines 186-294): keep anchors with a non-empty href containing
`"/courses/"`, non-empty text, no denylisted sub-resource pattern, and a
URL not already collected. -/
def archExtract (anchors : List AAnchor) : List ACourse :=
  anchors.foldl
    (fun cs a =>
      match a.href with
      | none => cs
      | some h =>
        if h == "" then cs
        else if !(strContains h "/courses/") then cs
        else if a.text == "" then cs
        else if archDenylist.any (fun k => strContains h k) then cs
        else
          let url := absolutize h
          if cs.any (fun c => c.url == url) then cs
          else cs ++ [⟨a.text, url⟩])
    []

/-- The pagination loop of `gradescope_archiver.get_courses`
(lines 108-294) as written: `courses = []` and the whole anchor scan sit
inside the `while` loop after the click, so they run only on iterations
whose button check found the button visible and clicked it; both `break`
paths skip them for good. -/
def archLoop (chunks : List (List AAnchor)) (courses : List ACourse) (clicksDone : Nat) :
    List BState → List ACourse
  | [] => courses
  | BState.visible :: rest =>
    archLoop chunks (archExtract ((chunks.take (clicksDone + 2)).flatten)) (clicksDone + 1) rest
  | _ :: _ => courses

/-- `gradescope_archiver.get_courses` (lines 45-303): `courses` is
initialized to `[]` at line 99 and only ever reassigned inside the
pagination loop. -/
def getCoursesArch (chunks : List (List AAnchor)) (states : List BState) : List ACourse :=
  archLoop chunks [] 0 states

/-! ## Course index persistence (`gradescope_course_manager.py`)

The JSON object of `courses.json` is an insertion-ordered association
list from course URL to record, as a Python dict is. -/

structure CourseRec where
  full_name : String
  short_name : String
  term : String
  url : String
  timestamp : Nat
  rename : String
deriving DecidableEq, Repr

structure DiscCourse where
  url : String
  full_name : String
  short_name : String
  term : String
deriving DecidableEq, Repr

abbrev CourseDB := List (String × CourseRec)

def dbLookup : CourseDB → String → Option CourseRec
  | [], _ => none
  | (k, r) :: rest, key => if k == key then some r else dbLookup rest key

/-- Assignment to an existing dict key: the entry keeps its position. -/
def dbSet (db : CourseDB) (key : String) (r : CourseRec) : CourseDB :=
  db.map (fun e => if e.1 == key then (key, r) else e)

/-- One iteration of the loop of `update_course_data` (lines 26-42): a
new URL appends a fresh record with `rename` set to `""`; an existing URL
gets its `full_name`, `short_name`, `term` and `timestamp` fields
reassigned in place, leaving `url` and `rename` as they were.  `now`
stands for `time.time()`. -/
def updateStep (now : Nat) (acc : CourseDB) (c : DiscCourse) : CourseDB :=
  match dbLookup acc c.url with
  | none => acc ++ [(c.url, ⟨c.full_name, c.short_name, c.term, c.url, now, ""⟩)]
  | some r => dbSet acc c.url ⟨c.full_name, c.short_name, c.term, r.url, now, r.rename⟩

/-- `update_course_data` (lines 19-46): fold the per-course update over
the discovered list; nothing is ever removed from the index. -/
def update_course_data (now : Nat) (db : CourseDB) (discovered : List DiscCourse) : CourseDB :=
  discovered.foldl (updateStep now) db

example : scoreSearch ("94.0 / 100.0") = true := by decide
example : scoreSearch ("Submitted") = false := by decide
example : libIsGraded ("Graded") = true := by decide
example : archiverStatusIsGraded ("Graded") = false := by decide
example : sanitizeCourseName ("  CS 101: Intro!  ") = "CS 101 Intro" := by decide
example : sanitizeAssignmentName ("HW 1.2") = "HW1.2" := by decide
example : download_assignment ⟨false, [], none, false⟩ ("HW") = Except.error () := rfl

/-! ## Helper lemmas -/

theorem length_dropWhile_le {α : Type} (p : α → Bool) (l : List α) :
    (l.dropWhile p).length ≤ l.length := by
  induction l with
  | nil => simp
  | cons a t ih => by_cases h : p a <;> simp [List.dropWhile_cons, h] <;> omega

theorem dropWhile_self {α : Type} (p : α → Bool) (l : List α) :
    (l.dropWhile p).dropWhile p = l.dropWhile p := by
  induction l with
  | nil => rfl
  | cons a t ih =>
    by_cases h : p a
    · simp [List.dropWhile_cons, h, ih]
    · simp [List.dropWhile_cons, h]

theorem dropWhile_eq_self_of_prefix {α : Type} {p : α → Bool} {q m : List α}
    (hpre : q <+: m) (hm : m.dropWhile p = m) : q.dropWhile p = q := by
  cases q with
  | nil => rfl
  | cons a t =>
    cases m with
    | nil => simp at hpre
    | cons b u =>
      obtain ⟨r, hr⟩ := hpre
      have hab : a = b := by
        have := congrArg (fun l => List.head? l) hr
        simpa using this
      by_cases hb : p b
      · exfalso
        rw [List.dropWhile_cons, if_pos hb] at hm
        have hlen := congrArg List.length hm
        have := length_dropWhile_le p u
        simp at hlen
        omega
      · rw [List.dropWhile_cons, if_neg (hab ▸ hb)]

theorem mem_dropWhile {α : Type} {p : α → Bool} {l : List α} {a : α}
    (h : a ∈ l.dropWhile p) : a ∈ l := by
  induction l with
  | nil => simpa using h
  | cons b t ih =>
    by_cases hb : p b
    · rw [List.dropWhile_cons, if_pos hb] at h
      exact List.mem_cons_of_mem _ (ih h)
    · rwa [List.dropWhile_cons, if_neg hb] at h

theorem dropWhile_is_suffix {α : Type} (p : α → Bool) (l : List α) :
    ∃ t, l = t ++ l.dropWhile p := by
  induction l with
  | nil => exact ⟨[], rfl⟩
  | cons a u ih =>
    by_cases h : p a
    · obtain ⟨t, ht⟩ := ih
      refine ⟨a :: t, ?_⟩
      rw [List.dropWhile_cons, if_pos h]
      simpa using ht
    · exact ⟨[], by rw [List.dropWhile_cons, if_neg h]; rfl⟩

theorem mem_pyStrip {l : List Char} {a : Char} (h : a ∈ pyStrip l) : a ∈ l := by
  unfold pyStrip at h
  rw [List.mem_reverse] at h
  have h1 := mem_dropWhile h
  rw [List.mem_reverse] at h1
  exact mem_dropWhile h1

theorem pyStrip_idem (l : List Char) : pyStrip (pyStrip l) = pyStrip l := by
  unfold pyStrip
  have hmself : (l.dropWhile pyIsSpace).dropWhile pyIsSpace = l.dropWhile pyIsSpace :=
    dropWhile_self pyIsSpace l
  have hrrpre :
      ((l.dropWhile pyIsSpace).reverse.dropWhile pyIsSpace).reverse <+: l.dropWhile pyIsSpace := by
    obtain ⟨t, ht⟩ := dropWhile_is_suffix pyIsSpace (l.dropWhile pyIsSpace).reverse
    refine ⟨t.reverse, ?_⟩
    have := congrArg List.reverse ht
    simpa using this.symm
  have h1 := dropWhile_eq_self_of_prefix hrrpre hmself
  rw [h1, List.reverse_reverse]
  have h2 := dropWhile_self pyIsSpace (l.dropWhile pyIsSpace).reverse
  rw [h2]

theorem pyStrip_filter_eq (keep : Char → Bool) (l : List Char) :
    (pyStrip (l.filter keep)).filter keep = pyStrip (l.filter keep) := by
  rw [List.filter_eq_self]
  intro a ha
  exact (List.mem_filter.mp (mem_pyStrip ha)).2

/-! ## C1: status classification -/

/-- C1, counterexample: the claim says a status containing the literal
token `"Graded"` classifies as Graded, but the status-column check of
`gradescope_archiver.download_course` treats the status text `"Graded"`
(no score pattern) as not graded, diverging from the stated rules. -/
theorem c1_classifier_counterexample :
    ¬ (archiverStatusIsGraded ("Graded") = true ↔ classifySpec ("Graded") = GradingState.Graded) := by
  decide

/-- C1, amended: the stated priority rules describe
`gradescope_lib.download_course` exactly on the Graded frontier (a row is
queued iff the spec classifier says Graded, regardless of co-occurring
text), and classification is total (always one of Graded, Submitted,
NotSubmitted); but `gradescope_archiver`'s status-column check omits the
`"Graded"`-token rule — it is equivalent to the score pattern alone. -/
theorem c1_classifier_amended (s : String) :
    (libIsGraded s = true ↔ classifySpec s = GradingState.Graded)
    ∧ archiverStatusIsGraded s = scoreSearch s
    ∧ (scoreSearch s = true → classifySpec s = GradingState.Graded)
    ∧ (classifySpec s = GradingState.Graded ∨ classifySpec s = GradingState.Submitted
        ∨ classifySpec s = GradingState.NotSubmitted) := by
  unfold libIsGraded archiverStatusIsGraded classifySpec
  cases h1 : scoreSearch s <;> cases h2 : strContains s ("Graded") <;>
    cases h3 : strContains s ("Submitted") <;> simp [h1, h2, h3]

/-- C1 amended, witness at a concrete graded-with-label status string. -/
theorem c1_classifier_amended_witness :
    (libIsGraded ("Graded: 94.0 / 100.0") = true
      ↔ classifySpec ("Graded: 94.0 / 100.0") = GradingState.Graded)
    ∧ archiverStatusIsGraded ("Graded: 94.0 / 100.0") = scoreSearch ("Graded: 94.0 / 100.0")
    ∧ (scoreSearch ("Graded: 94.0 / 100.0") = true
        → classifySpec ("Graded: 94.0 / 100.0") = GradingState.Graded)
    ∧ (classifySpec ("Graded: 94.0 / 100.0") = GradingState.Graded
        ∨ classifySpec ("Graded: 94.0 / 100.0") = GradingState.Submitted
        ∨ classifySpec ("Graded: 94.0 / 100.0") = GradingState.NotSubmitted) :=
  c1_classifier_amended ("Graded: 94.0 / 100.0")

/-! ## C9: sanitization -/

/-- C9: both directory-name sanitizers are idempotent; the course result
contains only alphanumerics, spaces and hyphens, the assignment result
only alphanumerics, spaces, hyphens, dots and underscores; and both
results carry no surrounding whitespace (stripping them again changes
nothing). -/
theorem c9_sanitization (s : String) :
    sanitizeCourseName (sanitizeCourseName s) = sanitizeCourseName s
    ∧ sanitizeAssignmentName (sanitizeAssignmentName s) = sanitizeAssignmentName s
    ∧ (sanitizeCourseName s).data.all keepCourseChar = true
    ∧ (sanitizeAssignmentName s).data.all keepPdfChar = true
    ∧ pyStrip (sanitizeCourseName s).data = (sanitizeCourseName s).data
    ∧ pyStrip (sanitizeAssignmentName s).data = (sanitizeAssignmentName s).data := by
  refine ⟨?_, ?_, ?_, ?_, ?_, ?_⟩
  · show (⟨pyStrip ((pyStrip (s.data.filter keepCourseChar)).filter keepCourseChar)⟩ : String) = _
    rw [pyStrip_filter_eq, pyStrip_idem]
    rfl
  · show (⟨pyStrip ((pyStrip (s.data.filter keepAssignChar)).filter keepAssignChar)⟩ : String) = _
    rw [pyStrip_filter_eq, pyStrip_idem]
    rfl
  · rw [List.all_eq_true]
    intro a ha
    exact (List.mem_filter.mp (mem_pyStrip ha)).2
  · rw [List.all_eq_true]
    intro a ha
    have hk := (List.mem_filter.mp (mem_pyStrip ha)).2
    unfold keepAssignChar at hk
    unfold keepPdfChar
    rcases Bool.or_eq_true_iff.mp hk with h | h
    · rcases Bool.or_eq_true_iff.mp h with h' | h'
      · rcases Bool.or_eq_true_iff.mp h' with h'' | h''
        · simp [h'']
        · simp [h'']
      · simp [h']
    · simp [h]
  · exact pyStrip_idem _
  · exact pyStrip_idem _

/-! ## Download chain lemmas -/

theorem smem_append (x : String) (l : List String) (y : String) :
    smem x (l ++ [y]) = (smem x l || (y == x)) := by
  induction l with
  | nil => simp [smem]
  | cons a t ih => simp [smem, ih, Bool.or_assoc]

theorem snodup_concat {y : String} {l : List String}
    (hm : smem y l = false) (hn : snodup l = true) : snodup (l ++ [y]) = true := by
  induction l with
  | nil => simp [snodup, smem]
  | cons a t ih =>
    simp only [smem, Bool.or_eq_false_iff] at hm
    simp only [snodup, Bool.and_eq_true] at hn
    have hat : smem a t = false := by
      have h := hn.1
      cases hsm : smem a t
      · rfl
      · rw [hsm] at h; simp at h
    have hne : (y == a) = false := by
      have h := hm.1
      rw [beq_eq_false_iff_ne] at h ⊢
      exact fun hc => h hc.symm
    rw [List.cons_append]
    show (!(smem a (t ++ [y])) && snodup (t ++ [y])) = true
    rw [smem_append, hat, hne, ih hm.2 hn.2]
    rfl

theorem countFetch_append (h : String) (tr evs : List FEv) :
    countFetch h (tr ++ evs) = countFetch h tr + countFetch h evs := by
  induction tr with
  | nil => simp [countFetch]
  | cons e r ih =>
    cases e with
    | fetch h' => simp [countFetch, ih]; omega
    | save h' => simp [countFetch, ih]

theorem foldl_flatten_chain (sels : List (List DLink)) (st : DLState) :
    sels.foldl (fun st links => links.foldl processLink st) st
      = (sels.flatten).foldl processLink st := by
  induction sels generalizing st with
  | nil => rfl
  | cons x xs ih => simp [List.foldl_append, ih]

theorem runChain_eq_flat (p : DPage) :
    runChain p = (p.sels.flatten).foldl processLink initDL :=
  foldl_flatten_chain p.sels initDL

theorem processLink_fetch_inv (h : String) (st : DLState) (l : DLink)
    (hl : l.href = some h → l.dl ≠ none)
    (hinv : if smem h st.downloaded then countFetch h st.trace ≤ 1
            else countFetch h st.trace = 0) :
    (if smem h (processLink st l).downloaded then countFetch h (processLink st l).trace ≤ 1
     else countFetch h (processLink st l).trace = 0) := by
  unfold processLink
  cases hh : l.href with
  | none => exact hinv
  | some h' =>
    by_cases he : (h' == "") = true
    · simp only [he, if_true]
      exact hinv
    · simp only [he, if_false, Bool.false_eq_true]
      by_cases hm : smem h' st.downloaded = true
      · simp only [hm, if_true]
        exact hinv
      · simp only [hm, if_false, Bool.false_eq_true]
        cases hd : l.dl with
        | some fn =>
          by_cases hx : h' = h
          · subst hx
            have h0 : countFetch h' st.trace = 0 := by
              rw [Bool.not_eq_true] at hm
              rw [hm] at hinv
              simpa using hinv
            have : smem h' (st.downloaded ++ [h']) = true := by
              rw [smem_append]
              simp
            simp only [this, if_true, countFetch_append, h0, countFetch]
            simp
          · have hsm : smem h (st.downloaded ++ [h']) = smem h st.downloaded := by
              rw [smem_append]
              have : (h' == h) = false := by
                rw [beq_eq_false_iff_ne]
                exact hx
              simp [this]
            have hcf : countFetch h (st.trace ++ [FEv.fetch h', FEv.save h'])
                = countFetch h st.trace := by
              rw [countFetch_append]
              simp [countFetch, hx]
            simp only [hsm, hcf]
            exact hinv
        | none =>
          have hx : h' ≠ h := by
            intro hcontra
            subst hcontra
            exact hl hh hd
          have hcf : countFetch h (st.trace ++ [FEv.fetch h'])
              = countFetch h st.trace := by
            rw [countFetch_append]
            simp [countFetch, hx]
          simp only [hcf]
          exact hinv

theorem chain_fetch_inv (h : String) (links : List DLink) :
    ∀ st : DLState,
      (∀ l ∈ links, l.href = some h → l.dl ≠ none) →
      (if smem h st.downloaded then countFetch h st.trace ≤ 1
       else countFetch h st.trace = 0) →
      (if smem h (links.foldl processLink st).downloaded
       then countFetch h (links.foldl processLink st).trace ≤ 1
       else countFetch h (links.foldl processLink st).trace = 0) := by
  induction links with
  | nil => intro st _ hinv; exact hinv
  | cons l rest ih =>
    intro st hall hinv
    exact ih _ (fun l' hl' => hall l' (List.mem_cons_of_mem _ hl'))
      (processLink_fetch_inv h st l (hall l (List.mem_cons_self _ _)) hinv)

theorem processLink_nodup (st : DLState) (l : DLink)
    (h : snodup st.downloaded = true) : snodup (processLink st l).downloaded = true := by
  unfold processLink
  cases l.href with
  | none => exact h
  | some h' =>
    by_cases he : (h' == "") = true
    · simp only [he, if_true]; exact h
    · simp only [he, if_false, Bool.false_eq_true]
      by_cases hm : smem h' st.downloaded = true
      · simp only [hm, if_true]; exact h
      · simp only [hm, if_false, Bool.false_eq_true]
        cases l.dl with
        | some fn =>
          exact snodup_concat (Bool.not_eq_true _ ▸ hm) h
        | none => exact h

theorem chain_nodup (links : List DLink) :
    ∀ st : DLState, snodup st.downloaded = true →
      snodup ((links.foldl processLink st)).downloaded = true := by
  induction links with
  | nil => intro st h; exact h
  | cons l rest ih => intro st h; exact ih _ (processLink_nodup st l h)

theorem processLink_count_saved (st : DLState) (l : DLink)
    (h : st.count = st.saved.length) :
    (processLink st l).count = (processLink st l).saved.length := by
  unfold processLink
  cases l.href with
  | none => exact h
  | some h' =>
    by_cases he : (h' == "") = true
    · simp only [he, if_true]; exact h
    · simp only [he, if_false, Bool.false_eq_true]
      by_cases hm : smem h' st.downloaded = true
      · simp only [hm, if_true]; exact h
      · simp only [hm, if_false, Bool.false_eq_true]
        cases l.dl with
        | some fn => simp [h]
        | none => exact h

theorem chain_count_saved (links : List DLink) :
    ∀ st : DLState, st.count = st.saved.length →
      (links.foldl processLink st).count = (links.foldl processLink st).saved.length := by
  induction links with
  | nil => intro st h; exact h
  | cons l rest ih => intro st h; exact ih _ (processLink_count_saved st l h)

theorem runChain_count_saved (p : DPage) :
    (runChain p).count = (runChain p).saved.length := by
  rw [runChain_eq_flat]
  exact chain_count_saved _ initDL rfl

theorem tryDirect_count_saved (p : DPage) (name : String) :
    (tryDirectDownloads p name).1.count = (tryDirectDownloads p name).1.saved.length := by
  unfold tryDirectDownloads
  have hc := runChain_count_saved p
  by_cases h0 : (runChain p).count = 0
  · rw [if_pos h0]
    cases hf : tryGradedPdfRequests p name with
    | none => exact hc
    | some r => simp [hc]
  · rw [if_neg h0]
    exact hc

/-! ## C2: downloadAssignment error absorption -/

/-- C2, counterexample: the claim says `downloadAssignment` never raises,
but `download_assignment` navigates with `page.goto` /
`page.wait_for_load_state` outside every `try`; when navigation fails the
exception propagates instead of degrading to a zero-file outcome. -/
theorem c2_never_raises_counterexample :
    download_assignment ⟨false, [], none, false⟩ ("HW 1") = Except.error () := rfl

/-- C2, amended: once the assignment page has been reached (navigation
succeeded), every failure of a strategy attempt is absorbed:
`download_assignment` returns an outcome, its file count always equals
the number of saved files, and total strategy exhaustion yields the
zero-file outcome rather than an exception.  A navigation failure,
however, propagates to the caller. -/
theorem c2_download_absorbs_failures (p : DPage) (name : String)
    (hnav : p.navOk = true) :
    ∃ o : Outcome, download_assignment p name = Except.ok o
      ∧ o.count = o.files.length
      ∧ (o.count = 0 → o.files = []) := by
  refine ⟨⟨(tryDirectDownloads p name).1.count, (tryDirectDownloads p name).1.saved⟩, ?_, ?_, ?_⟩
  · unfold download_assignment
    rw [if_pos hnav]
  · exact tryDirect_count_saved p name
  · intro h0
    have h0' : (tryDirectDownloads p name).1.count = 0 := h0
    have hcs := tryDirect_count_saved p name
    rw [h0'] at hcs
    show (tryDirectDownloads p name).1.saved = []
    exact List.length_eq_zero.mp hcs.symm

/-- C2 amended, witness: a page whose only matching link times out still
yields the zero-file `ok` outcome. -/
theorem c2_download_absorbs_failures_witness :
    (⟨true, [[⟨some ("x.zip"), none⟩]], none, false⟩ : DPage).navOk = true
    ∧ ∃ o : Outcome,
        download_assignment ⟨true, [[⟨some ("x.zip"), none⟩]], none, false⟩ ("HW") = Except.ok o
        ∧ o.count = o.files.length
        ∧ (o.count = 0 → o.files = []) :=
  ⟨rfl, c2_download_absorbs_failures ⟨true, [[⟨some ("x.zip"), none⟩]], none, false⟩ ("HW") rfl⟩

/-! ## C6: no duplicate fetch -/

/-- C6, counterexample: the per-assignment URL set records an href only
after a successful save, so when the first strategy's click on href `"h"`
fails (timeout) and a second strategy matches the same href, the chain
fetches `"h"` a second time — the claim's unconditional "fetched at most
once" is false. -/
theorem c6_fetch_once_counterexample :
    ¬ (countFetch ("h")
        (runChain ⟨true, [[⟨some ("h"), none⟩], [⟨some ("h"), some ("f.zip")⟩]], none, false⟩).trace
        ≤ 1) := by
  decide

/-- C6, amended: the chain attempts every matching element across all
strategies, an href is saved at most once (the recorded URL set stays
duplicate-free), and once an href is saved it is never fetched again; in
particular, if every element exposing href `h` downloads successfully
when clicked, `h` is fetched at most once.  Only a failed fetch can be
retried under a later matching strategy. -/
theorem c6_no_duplicate_fetch_amended (p : DPage) (h : String)
    (hsucc : ∀ l ∈ p.sels.flatten, l.href = some h → l.dl ≠ none) :
    snodup (runChain p).downloaded = true
    ∧ countFetch h (runChain p).trace ≤ 1 := by
  constructor
  · rw [runChain_eq_flat]
    exact chain_nodup _ initDL rfl
  · rw [runChain_eq_flat]
    have hinv := chain_fetch_inv h p.sels.flatten initDL hsucc
      (by simp [initDL, smem, countFetch])
    by_cases hx : smem h ((p.sels.flatten).foldl processLink initDL).downloaded = true
    · rw [if_pos hx] at hinv
      exact hinv
    · rw [if_neg hx] at hinv
      omega

/-- C6 amended, witness: the same href exposed under two strategies, both
succeeding, is fetched exactly once. -/
theorem c6_no_duplicate_fetch_amended_witness :
    (∀ l ∈ (⟨true, [[⟨some ("h"), some ("a.zip")⟩], [⟨some ("h"), some ("b.zip")⟩]], none, false⟩
        : DPage).sels.flatten, l.href = some ("h") → l.dl ≠ none)
    ∧ (snodup (runChain ⟨true, [[⟨some ("h"), some ("a.zip")⟩], [⟨some ("h"), some ("b.zip")⟩]],
          none, false⟩).downloaded = true
      ∧ countFetch ("h") (runChain ⟨true, [[⟨some ("h"), some ("a.zip")⟩],
          [⟨some ("h"), some ("b.zip")⟩]], none, false⟩).trace ≤ 1) :=
  ⟨by decide,
   c6_no_duplicate_fetch_amended
     ⟨true, [[⟨some ("h"), some ("a.zip")⟩], [⟨some ("h"), some ("b.zip")⟩]], none, false⟩
     ("h") (by decide)⟩

/-! ## C8: graded-PDF requests fallback -/

/-- C8: the requests-based graded-PDF fallback runs only when the
interactive chain saved nothing at all (in particular the graded-copy
link's interactive trigger yielded no file); when it succeeds, it fetched
the link's target resolved to an absolute URL and the outcome's saved
files are exactly the single file `<sanitized assignment name>_graded.pdf`. -/
theorem c8_pdf_fallback (p : DPage) (name : String) (r : String × String)
    (hr : (tryDirectDownloads p name).2 = some r) :
    (runChain p).count = 0
    ∧ (runChain p).saved = []
    ∧ (∃ h, p.pdfHref = some (some h) ∧ r.1 = absolutize h)
    ∧ r.2 = pdfSafeName name ++ "_graded.pdf"
    ∧ (tryDirectDownloads p name).1.saved = [r.2] := by
  have hcs := runChain_count_saved p
  by_cases hc0 : (runChain p).count = 0
  · have hs0 : (runChain p).saved = [] := by
      rw [hc0] at hcs
      exact List.length_eq_zero.mp hcs.symm
    unfold tryDirectDownloads at hr ⊢
    rw [if_pos hc0] at hr ⊢
    cases hf : tryGradedPdfRequests p name with
    | none =>
      rw [hf] at hr
      simp at hr
    | some r' =>
      rw [hf] at hr
      have hrr : r' = r := by
        simpa using hr
      subst hrr
      unfold tryGradedPdfRequests at hf
      cases hp : p.pdfHref with
      | none => rw [hp] at hf; simp at hf
      | some oh =>
        cases oh with
        | none => rw [hp] at hf; simp at hf
        | some h =>
          rw [hp] at hf
          by_cases hemp : (h == "") = true
          · simp only [hemp] at hf
            simp at hf
          · by_cases hok : p.pdfFetchOk = true
            · simp only [hemp, hok] at hf
              have hr' : (absolutize h, pdfSafeName name ++ "_graded.pdf") = r' := by
                simpa using hf
              refine ⟨hc0, hs0, ⟨h, ?_, ?_⟩, ?_, ?_⟩
              · rfl
              · rw [← hr']
              · rw [← hr']
              · show (runChain p).saved ++ [r'.2] = [r'.2]
                rw [hs0]
                rfl
            · simp only [hemp, hok] at hf
              simp at hf
  · exfalso
    unfold tryDirectDownloads at hr
    rw [if_neg hc0] at hr
    simp at hr

/-- C8, witness: a page with one failing interactive link and a working
graded-copy href; the fallback fetches the absolutized URL and saves the
single sanitized PDF. -/
theorem c8_pdf_fallback_witness :
    (tryDirectDownloads (⟨true, [[⟨some ("x"), none⟩]], some (some ("/files/1.pdf")), true⟩
        : DPage) ("HW 1: Intro")).2
      = some ("https://www.gradescope.com/files/1.pdf", "HW 1 Intro_graded.pdf")
    ∧ ((runChain ⟨true, [[⟨some ("x"), none⟩]], some (some ("/files/1.pdf")), true⟩).count = 0
      ∧ (runChain ⟨true, [[⟨some ("x"), none⟩]], some (some ("/files/1.pdf")), true⟩).saved = []
      ∧ (∃ h, (⟨true, [[⟨some ("x"), none⟩]], some (some ("/files/1.pdf")), true⟩
            : DPage).pdfHref = some (some h)
          ∧ ("https://www.gradescope.com/files/1.pdf", "HW 1 Intro_graded.pdf").1 = absolutize h)
      ∧ ("https://www.gradescope.com/files/1.pdf", "HW 1 Intro_graded.pdf").2
          = pdfSafeName ("HW 1: Intro") ++ "_graded.pdf"
      ∧ (tryDirectDownloads (⟨true, [[⟨some ("x"), none⟩]], some (some ("/files/1.pdf")), true⟩
            : DPage) ("HW 1: Intro")).1.saved
          = [("https://www.gradescope.com/files/1.pdf", "HW 1 Intro_graded.pdf").2]) :=
  ⟨by decide,
   c8_pdf_fallback ⟨true, [[⟨some ("x"), none⟩]], some (some ("/files/1.pdf")), true⟩
     ("HW 1: Intro") ("https://www.gradescope.com/files/1.pdf", "HW 1 Intro_graded.pdf")
     (by decide)⟩

/-! ## Filesystem lemmas for the normalizer -/

theorem smem_of_mem {x : String} {l : List String} (h : x ∈ l) : smem x l = true := by
  induction l with
  | nil => simp at h
  | cons y ys ih =>
    show ((y == x) || smem x ys) = true
    rcases List.mem_cons.mp h with h1 | h2
    · rw [h1]
      simp
    · rw [ih h2]
      simp

theorem snodup_cons {a : String} {t : List String} (h : snodup (a :: t) = true) :
    smem a t = false ∧ snodup t = true := by
  have h' : (!(smem a t) && snodup t) = true := h
  rw [Bool.and_eq_true] at h'
  obtain ⟨h1, h2⟩ := h'
  refine ⟨?_, h2⟩
  cases hs : smem a t
  · rfl
  · rw [hs] at h1
    simp at h1

theorem lookupFS_append (fs fs' : FS) (p : FPath) :
    lookupFS (fs ++ fs') p
      = match lookupFS fs p with
        | some n => some n
        | none => lookupFS fs' p := by
  induction fs with
  | nil => rfl
  | cons e rest ih =>
    obtain ⟨q, n⟩ := e
    by_cases hq : (q == p) = true
    · show (if (q == p) = true then some n else lookupFS (rest ++ fs') p) = _
      rw [if_pos hq]
      show _ = (match (if (q == p) = true then some n else lookupFS rest p) with
        | some n => some n
        | none => lookupFS fs' p)
      rw [if_pos hq]
    · show (if (q == p) = true then some n else lookupFS (rest ++ fs') p) = _
      rw [if_neg hq]
      show _ = (match (if (q == p) = true then some n else lookupFS rest p) with
        | some n => some n
        | none => lookupFS fs' p)
      rw [if_neg hq]
      exact ih

theorem setFS_fresh {fs : FS} {p : FPath} (n : FNode) (h : lookupFS fs p = none) :
    setFS fs p n = fs ++ [(p, n)] := by
  unfold setFS
  rw [h]
  rfl

theorem removeFS_append (a b : FS) (p : FPath) :
    removeFS (a ++ b) p = removeFS a p ++ removeFS b p := by
  unfold removeFS
  simp [List.filter_append]

theorem removeFS_of_all_ne {l : FS} {p : FPath} (h : ∀ e ∈ l, e.1 ≠ p) :
    removeFS l p = l := by
  unfold removeFS
  rw [List.filter_eq_self]
  intro e he
  have hne := h e he
  rw [Bool.not_eq_true']
  rw [beq_eq_false_iff_ne]
  exact hne

theorem extractEntries_plain_fresh (names : List String) :
    ∀ fs : FS,
      (∀ nm ∈ names, lookupFS fs [nm] = none) →
      snodup names = true →
      extractEntries [] (names.map (fun nm => ([nm], FNode.plain))) fs
        = fs ++ names.map (fun nm => ([nm], FNode.plain)) := by
  induction names with
  | nil =>
    intro fs _ _
    simp [extractEntries]
  | cons a t ih =>
    intro fs hfresh hnd
    obtain ⟨hat, hndt⟩ := snodup_cons hnd
    show extractEntries [] (t.map (fun nm => ([nm], FNode.plain)))
        (setFS fs ([] ++ [a]) FNode.plain) = _
    have h1 : setFS fs ([] ++ [a]) FNode.plain = fs ++ [([a], FNode.plain)] := by
      rw [List.nil_append]
      exact setFS_fresh _ (hfresh a (List.mem_cons_self _ _))
    rw [h1]
    rw [ih (fs ++ [([a], FNode.plain)]) ?_ hndt]
    · simp
    · intro nm hnm
      rw [lookupFS_append]
      rw [hfresh nm (List.mem_cons_of_mem _ hnm)]
      show lookupFS [([a], FNode.plain)] [nm] = none
      have hne : (([a] : FPath) == [nm]) = false := by
        rw [beq_eq_false_iff_ne]
        intro hc
        have ha : a = nm := by simpa using hc
        rw [ha] at hat
        rw [smem_of_mem hnm] at hat
        simp at hat
      show (if (([a] : FPath) == [nm]) = true then some FNode.plain else none) = none
      rw [hne]
      simp

/-! ## C4: archive normalization of one nested archive -/

/-- C4: for an archive whose sole entry is a nested archive containing
only plain files (no name colliding with the outer archive, every
extraction succeeding), normalization leaves exactly the plain files at
their expected relative paths — zero archive files remain on disk — and
the event trace shows the root archive deleted before the nested archive
is processed. -/
theorem c4_normalization (rootName nestedName : String) (plainNames : List String)
    (h1 : isArchiveName rootName = true)
    (h2 : isArchiveName nestedName = true)
    (h3 : plainNames.all (fun nm => !(isArchiveName nm)) = true)
    (h4 : snodup plainNames = true)
    (h5 : rootName ≠ nestedName) :
    extractIfArchive [rootName] []
        [([rootName], FNode.archive true
            [([nestedName], FNode.archive true (plainNames.map (fun nm => ([nm], FNode.plain))))])]
      = (plainNames.map (fun nm => ([nm], FNode.plain)),
         [AEvent.extracted [rootName], AEvent.deleted [rootName],
          AEvent.extracted [nestedName], AEvent.deleted [nestedName]])
    ∧ (plainNames.map (fun nm => ([nm], FNode.plain))).all (fun e => !(isArchivePath e.1)) = true := by
  have hplain : ∀ nm ∈ plainNames, isArchiveName nm = false := by
    rw [List.all_eq_true] at h3
    intro nm hnm
    have hb : (!(isArchiveName nm)) = true := h3 nm hnm
    cases hx : isArchiveName nm
    · rfl
    · rw [hx] at hb
      simp at hb
  constructor
  · set pents := plainNames.map (fun nm => ([nm], FNode.plain)) with hpents
    set nestedN := FNode.archive true pents with hnested
    set fs0 : FS := [([rootName], FNode.archive true [([nestedName], nestedN)])] with hfs0
    have hap : isArchivePath [rootName] = true := h1
    have hap2 : isArchivePath [nestedName] = true := h2
    have hlookr : lookupFS fs0 [rootName] = some (FNode.archive true [([nestedName], nestedN)]) := by
      show (if (([rootName] : FPath) == [rootName]) = true
            then some (FNode.archive true [([nestedName], nestedN)]) else none) = _
      rw [if_pos (by simp)]
    have hlookn : lookupFS fs0 [nestedName] = none := by
      show (if (([rootName] : FPath) == [nestedName]) = true
            then some (FNode.archive true [([nestedName], nestedN)]) else lookupFS [] [nestedName]) = _
      rw [if_neg (by simp [h5])]
      rfl
    have h_e1 : extractEntries [] [([nestedName], nestedN)] fs0 = fs0 ++ [([nestedName], nestedN)] := by
      show setFS fs0 ([] ++ [nestedName]) nestedN = _
      rw [List.nil_append]
      exact setFS_fresh _ hlookn
    have h_rm1 : removeFS (fs0 ++ [([nestedName], nestedN)]) [rootName] = [([nestedName], nestedN)] := by
      rw [removeFS_append]
      have ha : removeFS fs0 [rootName] = [] := by
        simp [removeFS, List.filter]
      have hb : removeFS [([nestedName], nestedN)] [rootName] = [([nestedName], nestedN)] := by
        apply removeFS_of_all_ne
        intro e he
        simp at he
        rw [he]
        intro hc
        simp at hc
        exact h5 hc.symm
      rw [ha, hb]
      rfl
    have hfresh2 : ∀ nm ∈ plainNames, lookupFS [([nestedName], nestedN)] [nm] = none := by
      intro nm hnm
      have hne : nestedName ≠ nm := by
        intro hc
        have := hplain nm hnm
        rw [← hc] at this
        rw [h2] at this
        simp at this
      show (if (([nestedName] : FPath) == [nm]) = true then some nestedN else none) = none
      rw [if_neg (by simp [hne])]
    have h_ee2 : extractEntries [] pents [([nestedName], nestedN)] = [([nestedName], nestedN)] ++ pents := by
      rw [hpents]
      exact extractEntries_plain_fresh plainNames _ hfresh2 h4
    have h_rm2 : removeFS ([([nestedName], nestedN)] ++ pents) [nestedName] = pents := by
      rw [removeFS_append]
      have ha : removeFS [([nestedName], nestedN)] [nestedName] = [] := by
        simp [removeFS, List.filter]
      have hb : removeFS pents [nestedName] = pents := by
        apply removeFS_of_all_ne
        intro e he
        rw [hpents] at he
        rw [List.mem_map] at he
        obtain ⟨nm, hnm, hee⟩ := he
        rw [← hee]
        have hne : nm ≠ nestedName := by
          intro hc
          have := hplain nm hnm
          rw [hc, h2] at this
          simp at this
        simp [hne]
      rw [ha, hb]
      rfl
    have h_one : extractOneNested ([([nestedName], nestedN)], []) [nestedName]
        = (pents, [AEvent.extracted [nestedName], AEvent.deleted [nestedName]]) := by
      have hlook2 : lookupFS [([nestedName], nestedN)] [nestedName] = some nestedN := by
        show (if (([nestedName] : FPath) == [nestedName]) = true then some nestedN else none) = _
        rw [if_pos (by simp)]
      unfold extractOneNested
      rw [hlook2]
      rw [hnested]
      show (removeFS (extractEntries ([nestedName].dropLast) pents [([nestedName], nestedN)]) [nestedName], [] ++ [AEvent.extracted [nestedName], AEvent.deleted [nestedName]]) = _
      have hdl : ([nestedName] : FPath).dropLast = [] := rfl
      rw [hdl, h_ee2, h_rm2]
      rfl
    have h_nested : extractNestedArchives [] [([nestedName], nestedN)]
        = (pents, [AEvent.extracted [nestedName], AEvent.deleted [nestedName]]) := by
      unfold extractNestedArchives
      have hpre : (([] : FPath).isPrefixOf [nestedName]) = true := rfl
      have hfilter : (([([nestedName], nestedN)] : FS).filter
          (fun e => ([] : FPath).isPrefixOf e.1 && isArchivePath e.1)) = [([nestedName], nestedN)] := by
        simp [List.filter, hpre, hap2]
      rw [hfilter]
      show extractOneNested ([([nestedName], nestedN)], []) [nestedName] = _
      exact h_one
    -- assembly
    unfold extractIfArchive
    have hcond : (!(isArchivePath ([rootName] : FPath))) = false := by
      rw [hap]
      rfl
    rw [hcond]
    simp only [Bool.false_eq_true, if_false]
    rw [hlookr]
    show ((extractNestedArchives [] (removeFS (extractEntries [] [([nestedName], nestedN)] fs0) [rootName])).1,
          [AEvent.extracted [rootName], AEvent.deleted [rootName]]
            ++ (extractNestedArchives [] (removeFS (extractEntries [] [([nestedName], nestedN)] fs0) [rootName])).2)
        = _
    rw [h_e1, h_rm1, h_nested]
    rfl
  · rw [List.all_eq_true]
    intro e he
    rw [List.mem_map] at he
    obtain ⟨nm, hnm, hee⟩ := he
    rw [← hee]
    have hz : isArchivePath [nm] = false := hplain nm hnm
    show (!(isArchivePath [nm])) = true
    rw [hz]
    rfl

/-! ## C7: extraction failure containment -/

/-- C7: a corrupt archive (its open/extract raises) is caught and logged
with the offending path via a `failed` event, its file is not deleted and
keeps its content, and the sibling archive in the same directory is still
extracted and deleted; likewise a failing top-level extraction returns
the filesystem unchanged with only the failure logged. -/
theorem c7_extraction_failure (badName goodName : String) (badEntries : List (FPath × FNode))
    (goodNames : List String)
    (hb : isArchiveName badName = true)
    (hg : isArchiveName goodName = true)
    (hbg : badName ≠ goodName)
    (hgp : goodNames.all (fun nm => !(isArchiveName nm)) = true)
    (hnd : snodup goodNames = true) :
    extractNestedArchives []
        [([badName], FNode.archive false badEntries),
         ([goodName], FNode.archive true (goodNames.map (fun nm => ([nm], FNode.plain))))]
      = ([([badName], FNode.archive false badEntries)]
           ++ goodNames.map (fun nm => ([nm], FNode.plain)),
         [AEvent.failed [badName], AEvent.extracted [goodName], AEvent.deleted [goodName]])
    ∧ extractIfArchive [badName] []
        [([badName], FNode.archive false badEntries),
         ([goodName], FNode.archive true (goodNames.map (fun nm => ([nm], FNode.plain))))]
      = ([([badName], FNode.archive false badEntries),
          ([goodName], FNode.archive true (goodNames.map (fun nm => ([nm], FNode.plain))))],
         [AEvent.failed [badName]]) := by
  have hplain : ∀ nm ∈ goodNames, isArchiveName nm = false := by
    rw [List.all_eq_true] at hgp
    intro nm hnm
    have hbb : (!(isArchiveName nm)) = true := hgp nm hnm
    cases hx : isArchiveName nm
    · rfl
    · rw [hx] at hbb
      simp at hbb
  set gents := goodNames.map (fun nm => ([nm], FNode.plain)) with hgents
  set badN := FNode.archive false badEntries with hbadN
  set goodN := FNode.archive true gents with hgoodN
  set fs : FS := [([badName], badN), ([goodName], goodN)] with hfs
  have hapb : isArchivePath [badName] = true := hb
  have hapg : isArchivePath [goodName] = true := hg
  have hlookb : lookupFS fs [badName] = some badN := by
    show (if (([badName] : FPath) == [badName]) = true then some badN
          else lookupFS [([goodName], goodN)] [badName]) = _
    rw [if_pos (by simp)]
  have hlookg : lookupFS fs [goodName] = some goodN := by
    show (if (([badName] : FPath) == [goodName]) = true then some badN
          else lookupFS [([goodName], goodN)] [goodName]) = _
    rw [if_neg (by simp [hbg])]
    show (if (([goodName] : FPath) == [goodName]) = true then some goodN else none) = _
    rw [if_pos (by simp)]
  have hfresh : ∀ nm ∈ goodNames, lookupFS fs [nm] = none := by
    intro nm hnm
    have hnb : badName ≠ nm := by
      intro hc
      have := hplain nm hnm
      rw [← hc, hb] at this
      simp at this
    have hng : goodName ≠ nm := by
      intro hc
      have := hplain nm hnm
      rw [← hc, hg] at this
      simp at this
    show (if (([badName] : FPath) == [nm]) = true then some badN
          else lookupFS [([goodName], goodN)] [nm]) = _
    rw [if_neg (by simp [hnb])]
    show (if (([goodName] : FPath) == [nm]) = true then some goodN else none) = _
    rw [if_neg (by simp [hng])]
  have h_ee : extractEntries [] gents fs = fs ++ gents := by
    rw [hgents]
    exact extractEntries_plain_fresh goodNames _ hfresh hnd
  have h_rm : removeFS (fs ++ gents) [goodName] = [([badName], badN)] ++ gents := by
    rw [removeFS_append]
    have ha : removeFS fs [goodName] = [([badName], badN)] := by
      show List.filter _ (([badName], badN) :: [([goodName], goodN)]) = _
      rw [List.filter_cons, List.filter_cons]
      have hc1 : (!((([badName], badN) : FPath × FNode).1 == [goodName])) = true := by
        simp [hbg]
      have hc2 : (!((([goodName], goodN) : FPath × FNode).1 == [goodName])) = false := by
        simp
      rw [hc1, hc2]
      simp
    have hb2 : removeFS gents [goodName] = gents := by
      apply removeFS_of_all_ne
      intro e he
      rw [hgents] at he
      rw [List.mem_map] at he
      obtain ⟨nm, hnm, hee⟩ := he
      rw [← hee]
      have hne : nm ≠ goodName := by
        intro hc
        have := hplain nm hnm
        rw [hc, hg] at this
        simp at this
      simp [hne]
    rw [ha, hb2]
  have h_one_bad : extractOneNested (fs, []) [badName] = (fs, [AEvent.failed [badName]]) := by
    unfold extractOneNested
    rw [hlookb]
    rw [hbadN]
    rfl
  have h_one_good : extractOneNested (fs, [AEvent.failed [badName]]) [goodName]
      = ([([badName], badN)] ++ gents,
         [AEvent.failed [badName], AEvent.extracted [goodName], AEvent.deleted [goodName]]) := by
    unfold extractOneNested
    rw [hlookg]
    rw [hgoodN]
    show (removeFS (extractEntries (([goodName] : FPath).dropLast) gents fs) [goodName],
          [AEvent.failed [badName]] ++ [AEvent.extracted [goodName], AEvent.deleted [goodName]]) = _
    have hdl : ([goodName] : FPath).dropLast = [] := rfl
    rw [hdl, h_ee, h_rm]
    rfl
  constructor
  · unfold extractNestedArchives
    have hpre1 : (([] : FPath).isPrefixOf [badName]) = true := rfl
    have hpre2 : (([] : FPath).isPrefixOf [goodName]) = true := rfl
    have hfilter : (fs.filter (fun e => ([] : FPath).isPrefixOf e.1 && isArchivePath e.1)) = fs := by
      rw [List.filter_eq_self]
      intro e he
      rw [hfs] at he
      rcases List.mem_cons.mp he with h1 | h2
      · rw [h1]
        simp [hpre1, hapb]
      · simp at h2
        rw [h2]
        simp [hpre2, hapg]
    rw [hfilter]
    show extractOneNested (extractOneNested (fs, []) [badName]) [goodName] = _
    rw [h_one_bad, h_one_good]
  · unfold extractIfArchive
    have hcond : (!(isArchivePath ([badName] : FPath))) = false := by
      rw [hapb]
      rfl
    rw [hcond]
    simp only [Bool.false_eq_true, if_false]
    rw [hlookb]

/-- C4, witness: `a.zip` containing only `b.zip` containing `f.txt` and
`g.txt`. -/
theorem c4_normalization_witness :
    isArchiveName ("a.zip") = true
    ∧ isArchiveName ("b.zip") = true
    ∧ ((["f.txt", "g.txt"] : List String).all (fun nm => !(isArchiveName nm)) = true)
    ∧ snodup ["f.txt", "g.txt"] = true
    ∧ ("a.zip" : String) ≠ ("b.zip" : String)
    ∧ (extractIfArchive [("a.zip" : String)] []
          [([("a.zip" : String)], FNode.archive true
              [([("b.zip" : String)], FNode.archive true
                  ((["f.txt", "g.txt"] : List String).map (fun nm => ([nm], FNode.plain))))])]
        = ((["f.txt", "g.txt"] : List String).map (fun nm => ([nm], FNode.plain)),
           [AEvent.extracted [("a.zip" : String)], AEvent.deleted [("a.zip" : String)],
            AEvent.extracted [("b.zip" : String)], AEvent.deleted [("b.zip" : String)]])
      ∧ ((["f.txt", "g.txt"] : List String).map (fun nm => ([nm], FNode.plain))).all
          (fun e => !(isArchivePath e.1)) = true) :=
  ⟨by decide, by decide, by decide, by decide, by decide,
   c4_normalization ("a.zip") ("b.zip") ["f.txt", "g.txt"]
     (by decide) (by decide) (by decide) (by decide) (by decide)⟩

/-- C7, witness: a corrupt `bad.zip` next to a working `good.zip`
containing `h.txt`. -/
theorem c7_extraction_failure_witness :
    isArchiveName ("bad.zip") = true
    ∧ isArchiveName ("good.zip") = true
    ∧ ("bad.zip" : String) ≠ ("good.zip" : String)
    ∧ ((["h.txt"] : List String).all (fun nm => !(isArchiveName nm)) = true)
    ∧ snodup ["h.txt"] = true
    ∧ (extractNestedArchives []
          [([("bad.zip" : String)], FNode.archive false []),
           ([("good.zip" : String)], FNode.archive true
              ((["h.txt"] : List String).map (fun nm => ([nm], FNode.plain))))]
        = ([([("bad.zip" : String)], FNode.archive false [])]
             ++ (["h.txt"] : List String).map (fun nm => ([nm], FNode.plain)),
           [AEvent.failed [("bad.zip" : String)], AEvent.extracted [("good.zip" : String)],
            AEvent.deleted [("good.zip" : String)]])
      ∧ extractIfArchive [("bad.zip" : String)] []
          [([("bad.zip" : String)], FNode.archive false []),
           ([("good.zip" : String)], FNode.archive true
              ((["h.txt"] : List String).map (fun nm => ([nm], FNode.plain))))]
        = ([([("bad.zip" : String)], FNode.archive false []),
            ([("good.zip" : String)], FNode.archive true
               ((["h.txt"] : List String).map (fun nm => ([nm], FNode.plain))))],
           [AEvent.failed [("bad.zip" : String)]])) :=
  ⟨by decide, by decide, by decide, by decide, by decide,
   c7_extraction_failure ("bad.zip") ("good.zip") [] ["h.txt"]
     (by decide) (by decide) (by decide) (by decide) (by decide)⟩

/-! ## C5: nested archives deeper than one level survive -/

/-- C5, divergence: `_extract_nested_archives` snapshots the archive
files once and never re-scans content created by its own extractions, so
for `root.zip` containing `mid.zip` containing `inner.zip`, normalization
extracts `root.zip` and `mid.zip` but leaves `inner.zip` — a file whose
extension identifies it as an archive — on disk, contradicting the
claim's "no archive file remains at any nesting depth". -/
theorem c5_nested_archive_remains :
    (extractIfArchive [("root.zip" : String)] []
        [([("root.zip" : String)], FNode.archive true
            [([("mid.zip" : String)], FNode.archive true
                [([("inner.zip" : String)], FNode.archive true
                    [([("f.txt" : String)], FNode.plain)])])])]).1
      = [([("inner.zip" : String)], FNode.archive true [([("f.txt" : String)], FNode.plain)])]
    ∧ isArchivePath [("inner.zip" : String)] = true
    ∧ (extractIfArchive [("root.zip" : String)] []
        [([("root.zip" : String)], FNode.archive true
            [([("mid.zip" : String)], FNode.archive true
                [([("inner.zip" : String)], FNode.archive true
                    [([("f.txt" : String)], FNode.plain)])])])]).2
      = [AEvent.extracted [("root.zip" : String)], AEvent.deleted [("root.zip" : String)],
         AEvent.extracted [("mid.zip" : String)], AEvent.deleted [("mid.zip" : String)]] :=
  ⟨rfl, by decide, rfl⟩

/-! ## C3: pagination and course extraction -/

/-- C3, divergence evaluation: on a dashboard showing one course card and
no "See older courses" button, `gradescope_archiver.get_courses` returns
the empty list — its anchor-extraction block sits inside the pagination
loop, which breaks before ever running it — even though the extraction
applied to that same page yields the course, and
`gradescope_lib.get_courses` (the claim's behavior) returns it. -/
theorem c3_archiver_pagination_bug :
    getCoursesArch [[⟨some ("/courses/123"), "CS 101"⟩]] [BState.notVisible] = []
    ∧ archExtract [⟨some ("/courses/123"), "CS 101"⟩]
        = [⟨"CS 101", "https://www.gradescope.com/courses/123"⟩]
    ∧ getCoursesLib
        [[⟨some ("/courses/123"), false, some ("CS 101"), some ("CS101"), some ("Fall 2024")⟩]]
        [BState.notVisible]
        = [⟨"https://www.gradescope.com/courses/123", "CS 101", "CS101", "Fall 2024"⟩] := by
  refine ⟨rfl, by decide, by decide⟩

/-! ## C10: course index update is frame-preserving -/

theorem dbLookup_dbSet_eq {db : CourseDB} {k : String} (x : CourseRec)
    (h : (dbLookup db k).isSome = true) :
    dbLookup (dbSet db k x) k = some x := by
  induction db with
  | nil => simp [dbLookup] at h
  | cons e rest ih =>
    obtain ⟨q, n⟩ := e
    by_cases hq : (q == k) = true
    · show dbLookup ((if (q == k) = true then (k, x) else (q, n)) :: dbSet rest k x) k = some x
      rw [if_pos hq]
      show (if (k == k) = true then some x else dbLookup (dbSet rest k x) k) = some x
      rw [if_pos (by simp)]
    · show dbLookup ((if (q == k) = true then (k, x) else (q, n)) :: dbSet rest k x) k = some x
      rw [if_neg hq]
      show (if (q == k) = true then some n else dbLookup (dbSet rest k x) k) = some x
      rw [if_neg hq]
      apply ih
      have h' : dbLookup ((q, n) :: rest) k = dbLookup rest k := by
        show (if (q == k) = true then some n else dbLookup rest k) = _
        rw [if_neg hq]
      rw [h'] at h
      exact h

theorem dbLookup_dbSet_ne {db : CourseDB} {key k : String} (x : CourseRec) (hne : k ≠ key) :
    dbLookup (dbSet db key x) k = dbLookup db k := by
  induction db with
  | nil => rfl
  | cons e rest ih =>
    obtain ⟨q, n⟩ := e
    by_cases hq : (q == key) = true
    · have hqk : q = key := by
        rwa [beq_iff_eq] at hq
      show dbLookup ((if (q == key) = true then (key, x) else (q, n)) :: dbSet rest key x) k = _
      rw [if_pos hq]
      show (if (key == k) = true then some x else dbLookup (dbSet rest key x) k) = _
      rw [if_neg (by simp only [beq_iff_eq]; exact fun hc => hne hc.symm)]
      show _ = (if (q == k) = true then some n else dbLookup rest k)
      rw [if_neg (by simp only [beq_iff_eq, hqk]; exact fun hc => hne hc.symm)]
      exact ih
    · show dbLookup ((if (q == key) = true then (key, x) else (q, n)) :: dbSet rest key x) k = _
      rw [if_neg hq]
      show (if (q == k) = true then some n else dbLookup (dbSet rest key x) k) = _
      by_cases hqk : (q == k) = true
      · rw [if_pos hqk]
        show _ = (if (q == k) = true then some n else dbLookup rest k)
        rw [if_pos hqk]
      · rw [if_neg hqk]
        show _ = (if (q == k) = true then some n else dbLookup rest k)
        rw [if_neg hqk]
        exact ih

theorem dbLookup_append_left {db : CourseDB} {k : String} {r : CourseRec}
    (h : dbLookup db k = some r) (l : CourseDB) :
    dbLookup (db ++ l) k = some r := by
  induction db with
  | nil => simp [dbLookup] at h
  | cons e rest ih =>
    obtain ⟨q, n⟩ := e
    by_cases hq : (q == k) = true
    · have h' : some n = some r := by
        have hx : dbLookup ((q, n) :: rest) k = some n := by
          show (if (q == k) = true then some n else dbLookup rest k) = _
          rw [if_pos hq]
        rw [hx] at h
        exact h
      show (if (q == k) = true then some n else dbLookup (rest ++ l) k) = some r
      rw [if_pos hq]
      exact h'
    · show (if (q == k) = true then some n else dbLookup (rest ++ l) k) = some r
      rw [if_neg hq]
      apply ih
      have h' : dbLookup ((q, n) :: rest) k = dbLookup rest k := by
        show (if (q == k) = true then some n else dbLookup rest k) = _
        rw [if_neg hq]
      rw [h'] at h
      exact h

/-- C10: updating the persisted course index never removes an existing
entry; an existing entry keeps its `rename` and `url` fields untouched;
an entry whose course is absent from the discovered list is entirely
unchanged; and an entry whose course was re-discovered gets its
`timestamp` overwritten (together with the name/term fields, the only
ones reassigned). -/
theorem c10_update_frame (now : Nat) (disc : List DiscCourse) :
    ∀ (db : CourseDB) (k : String) (r : CourseRec), dbLookup db k = some r →
      ∃ r', dbLookup (update_course_data now db disc) k = some r'
        ∧ r'.rename = r.rename
        ∧ r'.url = r.url
        ∧ ((∀ c ∈ disc, c.url ≠ k) → r' = r)
        ∧ ((∃ c ∈ disc, c.url = k) → r'.timestamp = now) := by
  induction disc with
  | nil =>
    intro db k r hk
    refine ⟨r, hk, rfl, rfl, fun _ => rfl, ?_⟩
    intro h
    obtain ⟨c, hc, _⟩ := h
    exact absurd hc (List.not_mem_nil c)
  | cons c rest ih =>
    intro db k r hk
    by_cases hc : c.url = k
    · have hstep : dbLookup (updateStep now db c) k
          = some ⟨c.full_name, c.short_name, c.term, r.url, now, r.rename⟩ := by
        unfold updateStep
        rw [hc, hk]
        apply dbLookup_dbSet_eq
        rw [hk]
        rfl
      obtain ⟨r', h1, h2, h3, h4, h5⟩ := ih (updateStep now db c) k _ hstep
      refine ⟨r', h1, h2, h3, ?_, ?_⟩
      · intro hall
        exact absurd hc (hall c (List.mem_cons_self _ _))
      · intro _
        by_cases hrest : ∀ c' ∈ rest, c'.url ≠ k
        · rw [h4 hrest]
        · rw [not_forall] at hrest
          obtain ⟨c', hrest'⟩ := hrest
          rw [Classical.not_imp] at hrest'
          obtain ⟨hmem, hurl⟩ := hrest'
          rw [not_not] at hurl
          exact h5 ⟨c', hmem, hurl⟩
    · have hstep : dbLookup (updateStep now db c) k = some r := by
        unfold updateStep
        cases hcu : dbLookup db c.url with
        | none => exact dbLookup_append_left hk _
        | some r2 =>
          have hset := @dbLookup_dbSet_ne db c.url k
            (⟨c.full_name, c.short_name, c.term, r2.url, now, r2.rename⟩ : CourseRec)
            (fun hx => hc hx.symm)
          rw [hk] at hset
          exact hset
      obtain ⟨r', h1, h2, h3, h4, h5⟩ := ih (updateStep now db c) k r hstep
      refine ⟨r', h1, h2, h3, ?_, ?_⟩
      · intro hall
        exact h4 (fun c' hc' => hall c' (List.mem_cons_of_mem _ hc'))
      · intro h
        obtain ⟨c', hmem, hurl⟩ := h
        rcases List.mem_cons.mp hmem with h1' | h2'
        · rw [h1'] at hurl
          exact absurd hurl hc
        · exact h5 ⟨c', h2', hurl⟩

/-- C10, witness: a re-discovered course keeps its manual `rename`, and a
concrete check that the entry survives with its timestamp refreshed. -/
theorem c10_update_frame_witness :
    dbLookup [("u1", (⟨"Old", "O", "F23", "u1", 1, "my-rename"⟩ : CourseRec))] ("u1")
      = some (⟨"Old", "O", "F23", "u1", 1, "my-rename"⟩ : CourseRec)
    ∧ ∃ r', dbLookup (update_course_data 5
          [("u1", (⟨"Old", "O", "F23", "u1", 1, "my-rename"⟩ : CourseRec))]
          [⟨"u1", "New", "N", "S24"⟩]) ("u1") = some r'
        ∧ r'.rename = (⟨"Old", "O", "F23", "u1", 1, "my-rename"⟩ : CourseRec).rename
        ∧ r'.url = (⟨"Old", "O", "F23", "u1", 1, "my-rename"⟩ : CourseRec).url
        ∧ ((∀ c ∈ ([⟨"u1", "New", "N", "S24"⟩] : List DiscCourse), c.url ≠ ("u1" : String))
            → r' = (⟨"Old", "O", "F23", "u1", 1, "my-rename"⟩ : CourseRec))
        ∧ ((∃ c ∈ ([⟨"u1", "New", "N", "S24"⟩] : List DiscCourse), c.url = ("u1" : String))
            → r'.timestamp = 5) :=
  ⟨by decide,
   c10_update_frame 5 [⟨"u1", "New", "N", "S24"⟩]
     [("u1", (⟨"Old", "O", "F23", "u1", 1, "my-rename"⟩ : CourseRec))] ("u1")
     (⟨"Old", "O", "F23", "u1", 1, "my-rename"⟩ : CourseRec) (by decide)⟩

theorem extractEntries_fresh_single (entries : List (String × FNode)) :
    ∀ fs : FS, (∀ e ∈ entries, lookupFS fs [e.1] = none) →
      snodup (entries.map (fun e => e.1)) = true →
      extractEntries [] (entries.map (fun e => ([e.1], e.2))) fs
        = fs ++ entries.map (fun e => ([e.1], e.2)) := by
  induction entries with
  | nil =>
    intro fs _ _
    simp [extractEntries]
  | cons a t ih =>
    intro fs hfresh hnd
    have hnd' : snodup (a.1 :: t.map (fun e => e.1)) = true := hnd
    obtain ⟨hat, hndt⟩ := snodup_cons hnd'
    show extractEntries [] (t.map (fun e => ([e.1], e.2))) (setFS fs ([] ++ [a.1]) a.2) = _
    have h1 : setFS fs ([] ++ [a.1]) a.2 = fs ++ [([a.1], a.2)] := by
      rw [List.nil_append]
      exact setFS_fresh _ (hfresh a (List.mem_cons_self _ _))
    rw [h1]
    rw [ih (fs ++ [([a.1], a.2)]) ?_ hndt]
    · simp
    · intro e he
      rw [lookupFS_append, hfresh e (List.mem_cons_of_mem _ he)]
      show lookupFS [([a.1], a.2)] [e.1] = none
      have hne : (([a.1] : FPath) == [e.1]) = false := by
        rw [beq_eq_false_iff_ne]
        intro hc
        have ha : a.1 = e.1 := by simpa using hc
        have hsm : smem a.1 (t.map (fun e => e.1)) = true := by
          rw [ha]
          exact smem_of_mem (List.mem_map_of_mem _ he)
        rw [hsm] at hat
        simp at hat
      show (if (([a.1] : FPath) == [e.1]) = true then some a.2 else none) = none
      rw [hne]
      simp


theorem mem_of_smem {x : String} {l : List String} (h : smem x l = true) : x ∈ l := by
  induction l with
  | nil => simp [smem] at h
  | cons y ys ih =>
    have h' : ((y == x) || smem x ys) = true := h
    rcases Bool.or_eq_true_iff.mp h' with hy | hy
    · rw [beq_iff_eq] at hy
      rw [hy]
      exact List.mem_cons_self _ _
    · exact List.mem_cons_of_mem _ (ih hy)

/-- C5, amended: normalization flattens exactly one level of archive
nesting beyond the root: the root archive and every archive present in
the one-time snapshot of the extraction target are extracted and deleted
(and the walk terminates), but an archive contained inside a nested
archive — created by the snapshot pass's own extraction — is never
processed and remains on disk with its archive extension. -/
theorem c5_one_level_flattening (rootName midName deepName : String)
    (plainNames : List String) (deepNode : FNode)
    (h1 : isArchiveName rootName = true)
    (h2 : isArchiveName midName = true)
    (h3 : isArchiveName deepName = true)
    (h4 : plainNames.all (fun nm => !(isArchiveName nm)) = true)
    (h5 : snodup plainNames = true)
    (h6 : rootName ≠ midName)
    (h7 : deepName ≠ midName)
    (h8 : ¬ deepName ∈ plainNames) :
    extractIfArchive [rootName] []
        [([rootName], FNode.archive true
            [([midName], FNode.archive true
                (plainNames.map (fun nm => ([nm], FNode.plain)) ++ [([deepName], deepNode)]))])]
      = (plainNames.map (fun nm => ([nm], FNode.plain)) ++ [([deepName], deepNode)],
         [AEvent.extracted [rootName], AEvent.deleted [rootName],
          AEvent.extracted [midName], AEvent.deleted [midName]])
    ∧ isArchivePath [deepName] = true := by
  have hplain : ∀ nm ∈ plainNames, isArchiveName nm = false := by
    rw [List.all_eq_true] at h4
    intro nm hnm
    have hb : (!(isArchiveName nm)) = true := h4 nm hnm
    cases hx : isArchiveName nm
    · rfl
    · rw [hx] at hb
      simp at hb
  refine ⟨?_, h3⟩
  set E := plainNames.map (fun nm => (nm, FNode.plain)) ++ [(deepName, deepNode)] with hE
  set pents := plainNames.map (fun nm => ([nm], FNode.plain)) ++ [([deepName], deepNode)] with hpents
  have hEmap : E.map (fun e => ([e.1], e.2)) = pents := by
    rw [hpents, hE]
    simp
  set midN := FNode.archive true pents with hmidN
  set fs0 : FS := [([rootName], FNode.archive true [([midName], midN)])] with hfs0
  have hap : isArchivePath [rootName] = true := h1
  have hap2 : isArchivePath [midName] = true := h2
  have hlookr : lookupFS fs0 [rootName] = some (FNode.archive true [([midName], midN)]) := by
    show (if (([rootName] : FPath) == [rootName]) = true
          then some (FNode.archive true [([midName], midN)]) else none) = _
    rw [if_pos (by simp)]
  have hlookm : lookupFS fs0 [midName] = none := by
    show (if (([rootName] : FPath) == [midName]) = true
          then some (FNode.archive true [([midName], midN)]) else lookupFS [] [midName]) = _
    rw [if_neg (by simp [h6])]
    rfl
  have h_e1 : extractEntries [] [([midName], midN)] fs0 = fs0 ++ [([midName], midN)] := by
    show setFS fs0 ([] ++ [midName]) midN = _
    rw [List.nil_append]
    exact setFS_fresh _ hlookm
  have h_rm1 : removeFS (fs0 ++ [([midName], midN)]) [rootName] = [([midName], midN)] := by
    rw [removeFS_append]
    have ha : removeFS fs0 [rootName] = [] := by
      simp [removeFS, List.filter]
    have hb : removeFS [([midName], midN)] [rootName] = [([midName], midN)] := by
      apply removeFS_of_all_ne
      intro e he
      simp at he
      rw [he]
      intro hc
      simp at hc
      exact h6 hc.symm
    rw [ha, hb]
    rfl
  have hdist : ∀ e ∈ E, e.1 ≠ midName := by
    intro e he
    rw [hE] at he
    rcases List.mem_append.mp he with hl | hr
    · rw [List.mem_map] at hl
      obtain ⟨nm, hnm, hee⟩ := hl
      subst hee
      intro hc
      have hc' : nm = midName := hc
      have hna := hplain nm hnm
      rw [hc', h2] at hna
      simp at hna
    · simp at hr
      subst hr
      intro hc
      exact h7 hc
  have hfresh2 : ∀ e ∈ E, lookupFS [([midName], midN)] [e.1] = none := by
    intro e he
    have hne : (([midName] : FPath) == [e.1]) = false := by
      rw [beq_eq_false_iff_ne]
      intro hc
      injection hc with hh _
      exact (hdist e he) hh.symm
    show (if (([midName] : FPath) == [e.1]) = true then some midN else none) = none
    rw [hne]
    simp
  have hndE : snodup (E.map (fun e => e.1)) = true := by
    rw [hE]
    have hmm : ((plainNames.map (fun nm => (nm, FNode.plain)) ++ [(deepName, deepNode)]).map
        (fun e => e.1)) = plainNames ++ [deepName] := by
      simp [List.map_map, Function.comp_def]
    rw [hmm]
    apply snodup_concat
    · cases hs : smem deepName plainNames
      · rfl
      · exact absurd (mem_of_smem hs) h8
    · exact h5
  have h_ee2 : extractEntries [] pents [([midName], midN)] = [([midName], midN)] ++ pents := by
    rw [← hEmap]
    exact extractEntries_fresh_single E _ hfresh2 hndE
  have h_rm2 : removeFS ([([midName], midN)] ++ pents) [midName] = pents := by
    rw [removeFS_append]
    have ha : removeFS [([midName], midN)] [midName] = [] := by
      simp [removeFS, List.filter]
    have hb : removeFS pents [midName] = pents := by
      apply removeFS_of_all_ne
      intro e he
      rw [← hEmap] at he
      rw [List.mem_map] at he
      obtain ⟨e', he', hee⟩ := he
      rw [← hee]
      intro hc
      injection hc with hh _
      exact (hdist e' he') hh
    rw [ha, hb]
    rfl
  have h_one : extractOneNested (([([midName], midN)] : FS), []) [midName]
      = (pents, [AEvent.extracted [midName], AEvent.deleted [midName]]) := by
    have hlook2 : lookupFS [([midName], midN)] [midName] = some midN := by
      show (if (([midName] : FPath) == [midName]) = true then some midN else none) = _
      rw [if_pos (by simp)]
    unfold extractOneNested
    rw [hlook2]
    rw [hmidN]
    show (removeFS (extractEntries (([midName] : FPath).dropLast) pents [([midName], midN)]) [midName],
          [] ++ [AEvent.extracted [midName], AEvent.deleted [midName]]) = _
    have hdl : ([midName] : FPath).dropLast = [] := rfl
    rw [hdl, h_ee2, h_rm2]
    rfl
  have h_nested : extractNestedArchives [] [([midName], midN)]
      = (pents, [AEvent.extracted [midName], AEvent.deleted [midName]]) := by
    unfold extractNestedArchives
    have hpre : (([] : FPath).isPrefixOf [midName]) = true := rfl
    have hfilter : (([([midName], midN)] : FS).filter
        (fun e => ([] : FPath).isPrefixOf e.1 && isArchivePath e.1)) = [([midName], midN)] := by
      simp [List.filter, hpre, hap2]
    rw [hfilter]
    show extractOneNested (([([midName], midN)] : FS), []) [midName] = _
    exact h_one
  unfold extractIfArchive
  have hcond : (!(isArchivePath ([rootName] : FPath))) = false := by
    rw [hap]
    rfl
  rw [hcond]
  simp only [Bool.false_eq_true, if_false]
  rw [hlookr]
  show ((extractNestedArchives [] (removeFS (extractEntries [] [([midName], midN)] fs0) [rootName])).1,
        [AEvent.extracted [rootName], AEvent.deleted [rootName]]
          ++ (extractNestedArchives [] (removeFS (extractEntries [] [([midName], midN)] fs0) [rootName])).2)
      = _
  rw [h_e1, h_rm1, h_nested]
  rfl

/-- C5 amended, witness: `root.tar.gz` containing `mid.zip` containing
`doc.txt` and `deep.tgz`; `deep.tgz` survives normalization. -/
theorem c5_one_level_flattening_witness :
    isArchiveName ("root.tar.gz") = true
    ∧ isArchiveName ("mid.zip") = true
    ∧ isArchiveName ("deep.tgz") = true
    ∧ ((["doc.txt"] : List String).all (fun nm => !(isArchiveName nm)) = true)
    ∧ snodup ["doc.txt"] = true
    ∧ ("root.tar.gz" : String) ≠ ("mid.zip" : String)
    ∧ ("deep.tgz" : String) ≠ ("mid.zip" : String)
    ∧ ¬ ("deep.tgz" : String) ∈ (["doc.txt"] : List String)
    ∧ (extractIfArchive [("root.tar.gz" : String)] []
          [([("root.tar.gz" : String)], FNode.archive true
              [([("mid.zip" : String)], FNode.archive true
                  ((["doc.txt"] : List String).map (fun nm => ([nm], FNode.plain))
                    ++ [([("deep.tgz" : String)], FNode.plain)]))])]
        = ((["doc.txt"] : List String).map (fun nm => ([nm], FNode.plain))
             ++ [([("deep.tgz" : String)], FNode.plain)],
           [AEvent.extracted [("root.tar.gz" : String)], AEvent.deleted [("root.tar.gz" : String)],
            AEvent.extracted [("mid.zip" : String)], AEvent.deleted [("mid.zip" : String)]])
      ∧ isArchivePath [("deep.tgz" : String)] = true) :=
  ⟨by decide, by decide, by decide, by decide, by decide, by decide, by decide, by decide,
   c5_one_level_flattening ("root.tar.gz") ("mid.zip") ("deep.tgz") ["doc.txt"] FNode.plain
     (by decide) (by decide) (by decide) (by decide) (by decide) (by decide) (by decide)
     (by decide)⟩
